import Mathlib

/-!
Verification of the Shannon-Fano encoder and its concurrency / network glue
from the operating-systems project (mutex.cpp, multiThreading.cpp,
server.cpp, client.cpp and the annotated copies under src/).

Modelling conventions:
* bytes (C++ `char` values of the input line) are natural numbers;
* the floating point probabilities of the source are modelled exactly as
  rationals (every quantity occurring is of the form k / lineLength);
* C++ strings of '0'/'1' characters are `List Char`;
* fallible wire-protocol reads return `Option`, the throwing variant of
  `decimalToBinary` returns `Except`.
-/

/-- `struct CharCode { char character; int freq; std::string code; }`
(identical in mutex.cpp, multiThreading.cpp, server.cpp, client.cpp). -/
structure CharCode where
  character : ℕ
  freq : ℕ
  code : List Char
deriving DecidableEq

/-- `compareFreqChar` from mutex.cpp lines 28-36: compares frequencies first
(descending) and, when they are equal, characters (descending). -/
def compareFreqChar (a b : CharCode) : Bool :=
  if a.freq ≠ b.freq then decide (a.freq > b.freq) else decide (a.character > b.character)

/-- `decimalToBinary` from mutex.cpp lines 39-73: repeatedly doubles the
decimal, emitting '1' (and subtracting 1) when the doubled value reaches 1,
else '0'; once the decimal hits 0 the remaining positions are padded
with '0'.  The loop counter `precision` is the recursion fuel. -/
def decimalToBinary : ℚ → ℕ → List Char
  | _, 0 => []
  | d, p + 1 =>
    if 0 < d then
      if 1 ≤ 2 * d then '1' :: decimalToBinary (2 * d - 1) p
      else '0' :: decimalToBinary (2 * d) p
    else List.replicate (p + 1) '0'

/-- Executable mirror of `decimalToBinary` on the exact numerator: the
running decimal is always `num / den` for the fixed denominator `den`. -/
def decimalToBinaryNum (den : ℕ) : ℕ → ℕ → List Char
  | _, 0 => []
  | num, p + 1 =>
    if 0 < num then
      if den ≤ 2 * num then '1' :: decimalToBinaryNum den (2 * num - den) p
      else '0' :: decimalToBinaryNum den (2 * num) p
    else List.replicate (p + 1) '0'

/-- `decimalToBinary` of src/src/sync/mutex.cpp lines 77-94, which first
checks `if (precision < 0) throw std::invalid_argument(...)`.  The C++
`int precision` is modelled as `ℤ`; the plain variant's loops run
`precision.toNat` times. -/
def decimalToBinaryChecked (d : ℚ) (p : ℤ) : Except String (List Char) :=
  if p < 0 then .error "Precision cannot be negative"
  else .ok (decimalToBinary d p.toNat)

/-- Helper for `precisionOf`: least `k ≤ fuel` with `n ≤ acc * 2 ^ k`. -/
def leastExp (n : ℕ) : ℕ → ℕ → ℕ
  | 0, _ => 0
  | fuel + 1, acc => if n ≤ acc then 0 else leastExp n fuel (2 * acc) + 1

/-- The `int precision = ceil(log2(1/probability))` of the source, for
`probability = f / n`: the least `k` with `n ≤ f * 2 ^ k` (executable).
`precisionOf_eq_intClog` below identifies it with `⌈log₂ (n / f)⌉`. -/
def precisionOf (f n : ℕ) : ℕ := leastExp n n f

theorem decimalToBinary_length (p : ℕ) : ∀ d, (decimalToBinary d p).length = p := by
  induction p with
  | zero => intro d; rfl
  | succ p ih =>
    intro d
    rw [decimalToBinary]
    split
    · split <;> simp [ih]
    · simp

theorem decimalToBinary_mem (p : ℕ) :
    ∀ d, ∀ ch ∈ decimalToBinary d p, ch = '0' ∨ ch = '1' := by
  induction p with
  | zero => intro d ch h; simp [decimalToBinary] at h
  | succ p ih =>
    intro d ch h
    rw [decimalToBinary] at h
    by_cases h0 : 0 < d
    · rw [if_pos h0] at h
      by_cases h1 : 1 ≤ 2 * d
      · rw [if_pos h1] at h
        rcases List.mem_cons.mp h with h | h
        · right; exact h
        · exact ih _ ch h
      · rw [if_neg h1] at h
        rcases List.mem_cons.mp h with h | h
        · left; exact h
        · exact ih _ ch h
    · rw [if_neg h0] at h
      left; exact List.eq_of_mem_replicate h

theorem decimalToBinaryNum_eq (den : ℕ) (hden : 0 < den) :
    ∀ p num, decimalToBinaryNum den num p = decimalToBinary ((num : ℚ) / den) p := by
  intro p
  induction p with
  | zero => intro num; rfl
  | succ p ih =>
    intro num
    have hdQ : (0 : ℚ) < (den : ℚ) := by exact_mod_cast hden
    rw [decimalToBinaryNum, decimalToBinary]
    by_cases h0 : 0 < num
    · have h0Q : 0 < (num : ℚ) / den := by positivity
      rw [if_pos h0, if_pos h0Q]
      by_cases h1 : den ≤ 2 * num
      · have h1Q : 1 ≤ 2 * ((num : ℚ) / den) := by
          rw [mul_div_assoc', le_div_iff₀ hdQ, one_mul]
          exact_mod_cast h1
        have harg : ((2 * num - den : ℕ) : ℚ) / (den : ℚ) = 2 * ((num : ℚ) / den) - 1 := by
          have hc : ((2 * num - den : ℕ) : ℚ) = 2 * (num : ℚ) - den := by
            push_cast [h1]
            ring
          rw [hc, sub_div, div_self (ne_of_gt hdQ), mul_div_assoc]
        rw [if_pos h1, if_pos h1Q, ih, harg]
      · have h1Q : ¬ 1 ≤ 2 * ((num : ℚ) / den) := by
          rw [mul_div_assoc', le_div_iff₀ hdQ, one_mul]
          intro hc
          exact h1 (by exact_mod_cast hc)
        have harg : ((2 * num : ℕ) : ℚ) / (den : ℚ) = 2 * ((num : ℚ) / den) := by
          push_cast
          rw [mul_div_assoc]
        rw [if_neg h1, if_neg h1Q, ih, harg]
    · have hz : num = 0 := by omega
      subst hz
      simp

theorem leastExp_le_bound (n : ℕ) :
    ∀ fuel acc k, n ≤ acc * 2 ^ k → k ≤ fuel → leastExp n fuel acc ≤ k := by
  intro fuel
  induction fuel with
  | zero => intro acc k _ _; simp [leastExp]
  | succ fuel ih =>
    intro acc k hk hkf
    rw [leastExp]
    split
    · exact Nat.zero_le _
    · rename_i hna
      match k with
      | 0 => simp at hk; omega
      | k + 1 =>
        have hmul : n ≤ 2 * acc * 2 ^ k := by
          have he : 2 * acc * 2 ^ k = acc * 2 ^ (k + 1) := by ring
          rw [he]
          exact hk
        have := ih (2 * acc) k hmul (by omega)
        omega

theorem leastExp_spec (n : ℕ) :
    ∀ fuel acc, 0 < acc → n ≤ acc * 2 ^ fuel →
      n ≤ acc * 2 ^ leastExp n fuel acc := by
  intro fuel
  induction fuel with
  | zero => intro acc _ h; simpa [leastExp] using h
  | succ fuel ih =>
    intro acc hacc h
    rw [leastExp]
    split
    · simpa
    · rename_i hna
      have h2 : n ≤ 2 * acc * 2 ^ fuel := by
        have he : 2 * acc * 2 ^ fuel = acc * 2 ^ (fuel + 1) := by ring
        rw [he]
        exact h
      have := ih (2 * acc) (by omega) h2
      calc n ≤ 2 * acc * 2 ^ leastExp n fuel (2 * acc) := this
        _ = acc * 2 ^ (leastExp n fuel (2 * acc) + 1) := by ring

theorem precisionOf_spec (f n : ℕ) (hf : 0 < f) : n ≤ f * 2 ^ precisionOf f n := by
  have hbound : n ≤ f * 2 ^ n := by
    have h1 : n ≤ 2 ^ n := Nat.le_of_lt (Nat.lt_two_pow n)
    calc n ≤ 2 ^ n := h1
      _ = 1 * 2 ^ n := by ring
      _ ≤ f * 2 ^ n := by
        exact Nat.mul_le_mul_right _ hf
  unfold precisionOf
  exact leastExp_spec n n f hf hbound

theorem precisionOf_min (f n k : ℕ) (h : n ≤ f * 2 ^ k) : precisionOf f n ≤ k := by
  unfold precisionOf
  by_cases hk : k ≤ n
  · exact leastExp_le_bound n n f k h hk
  · have hbound : n ≤ f * 2 ^ n := by
      rcases Nat.eq_zero_or_pos f with hf | hf
      · subst hf; simp at h; omega
      · have h1 : n ≤ 2 ^ n := Nat.le_of_lt (Nat.lt_two_pow n)
        calc n ≤ 2 ^ n := h1
          _ = 1 * 2 ^ n := by ring
          _ ≤ f * 2 ^ n := Nat.mul_le_mul_right _ hf
    have := leastExp_le_bound n n f n hbound (le_refl n)
    omega

theorem compareFreqChar_true_iff (a b : CharCode) :
    compareFreqChar a b = true ↔
      b.freq < a.freq ∨ (a.freq = b.freq ∧ b.character < a.character) := by
  unfold compareFreqChar
  split_ifs with h
  · simp; omega
  · simp; omega

theorem compareFreqChar_false_iff (a b : CharCode) :
    compareFreqChar a b = false ↔
      a.freq < b.freq ∨ (a.freq = b.freq ∧ a.character ≤ b.character) := by
  unfold compareFreqChar
  split_ifs with h
  · simp; omega
  · simp; omega

/-- The (total pre)order in which `std::sort(charCodeVec.begin(), ..,
compareFreqChar)` arranges the vector: `a` may precede `b` exactly when the
strict comparator does not demand `b` before `a`. -/
def sortLE (a b : CharCode) : Prop := compareFreqChar b a = false

instance : DecidableRel sortLE := fun a b => by
  unfold sortLE
  infer_instance

instance : IsTotal CharCode sortLE := by
  constructor
  intro a b
  unfold sortLE
  rw [compareFreqChar_false_iff, compareFreqChar_false_iff]
  omega

instance : IsTrans CharCode sortLE := by
  constructor
  intro a b c hab hbc
  unfold sortLE at *
  rw [compareFreqChar_false_iff] at *
  omega

/-- The frequency-counting stage of `shannonCode` (mutex.cpp lines 89-109):
the `std::map<char,int>` holds each distinct character of the line with its
count, and iterating the map yields them in ascending character order. -/
def initialAlphabet (line : List ℕ) : List CharCode :=
  (List.insertionSort (· ≤ ·) line.dedup).map fun c => ⟨c, line.count c, []⟩

/-- The `std::sort(charCodeVec.begin(), charCodeVec.end(), compareFreqChar)`
call of mutex.cpp line 112. -/
def sortedAlphabet (line : List ℕ) : List CharCode :=
  List.insertionSort sortLE (initialAlphabet line)

/-- The code-assignment loop of `shannonCode` (mutex.cpp lines 114-136):
walk the sorted alphabet, give each entry
`decimalToBinary(cumulativeProbability, ceil(log2(1/probability)))` and
advance `cumulativeProbability` by `probability = freq / lineSize`
(see `precisionOf_eq_intClog` for the precision identification). -/
def assignCodes (n : ℕ) : ℚ → List CharCode → List CharCode
  | _, [] => []
  | cum, c :: rest =>
    { c with code := decimalToBinary cum (precisionOf c.freq n) } ::
      assignCodes n (cum + (c.freq : ℚ) / n) rest

/-- Executable mirror of `assignCodes`, carrying the cumulative probability
as its exact numerator over the fixed denominator `n`. -/
def assignCodesNum (n : ℕ) : ℕ → List CharCode → List CharCode
  | _, [] => []
  | cnum, c :: rest =>
    { c with code := decimalToBinaryNum n cnum (precisionOf c.freq n) } ::
      assignCodesNum n (cnum + c.freq) rest

/-- The fully processed alphabet of one line. -/
def encodeAlphabet (line : List ℕ) : List CharCode :=
  assignCodes line.length 0 (sortedAlphabet line)

/-- `charCodeMap[c]` lookup: with distinct characters the `std::map` built
in the assignment loop holds exactly the entries of the processed vector. -/
def lookupCode (alpha : List CharCode) (c : ℕ) : Option CharCode :=
  alpha.find? fun e => e.character == c

/-- The final concatenation loop (mutex.cpp lines 143-146): for each byte of
the line append its code; a missing map entry contributes the empty string
(C++ `operator[]` default-constructs). -/
def encodeLineWith (alpha : List CharCode) (line : List ℕ) : List Char :=
  line.foldl (fun acc c => acc ++ ((lookupCode alpha c).map CharCode.code).getD []) []

/-- `Encoder.encode`: the pure content of `shannonCode`, producing the
ordered alphabet and the encoded bit string of one line. -/
def encode (line : List ℕ) : List CharCode × List Char :=
  (encodeAlphabet line, encodeLineWith (encodeAlphabet line) line)

/-- Executable mirror of `encode`. -/
def encodeNum (line : List ℕ) : List CharCode × List Char :=
  (assignCodesNum line.length 0 (sortedAlphabet line),
    encodeLineWith (assignCodesNum line.length 0 (sortedAlphabet line)) line)

/-- Byte view of a Lean string literal (for concrete test lines). -/
def lineBytes (s : String) : List ℕ := s.data.map Char.toNat

theorem assignCodesNum_eq (n : ℕ) (hn : 0 < n) :
    ∀ (l : List CharCode) (cnum : ℕ),
      assignCodesNum n cnum l = assignCodes n ((cnum : ℚ) / n) l := by
  intro l
  induction l with
  | nil => intro cnum; rfl
  | cons c rest ih =>
    intro cnum
    rw [assignCodesNum, assignCodes, decimalToBinaryNum_eq n hn, ih]
    have hq : ((cnum + c.freq : ℕ) : ℚ) / n = (cnum : ℚ) / n + (c.freq : ℚ) / n := by
      push_cast
      rw [add_div]
    rw [hq]

theorem encodeNum_eq (line : List ℕ) : encodeNum line = encode line := by
  rcases Nat.eq_zero_or_pos line.length with h | h
  · have : line = [] := List.length_eq_zero.mp h
    subst this
    rfl
  · unfold encodeNum encode encodeAlphabet
    rw [assignCodesNum_eq line.length h, Nat.cast_zero, zero_div]

example : encodeNum (lineBytes "aab") =
    ([⟨97, 2, ['0']⟩, ⟨98, 1, ['1', '0']⟩], ['0', '0', '1', '0']) := by decide

theorem precisionOf_eq_intClog (f n : ℕ) (hf : 0 < f) (hfn : f ≤ n) :
    (precisionOf f n : ℤ) = Int.clog 2 ((n : ℚ) / f) := by
  have hfQ : (0 : ℚ) < (f : ℚ) := by exact_mod_cast hf
  have hr : (1 : ℚ) ≤ (n : ℚ) / f := by
    rw [le_div_iff₀ hfQ, one_mul]
    exact_mod_cast hfn
  rw [Int.clog_of_one_le_right _ hr]
  have hnat : precisionOf f n = Nat.clog 2 ⌈(n : ℚ) / f⌉₊ := by
    apply le_antisymm
    · have hm : (⌈(n : ℚ) / f⌉₊ : ℕ) ≤ 2 ^ Nat.clog 2 ⌈(n : ℚ) / f⌉₊ :=
        Nat.le_pow_clog (by norm_num) _
      apply precisionOf_min
      have h1 : (n : ℚ) / f ≤ (2 : ℚ) ^ Nat.clog 2 ⌈(n : ℚ) / f⌉₊ := by
        calc (n : ℚ) / f ≤ (⌈(n : ℚ) / f⌉₊ : ℚ) := Nat.le_ceil _
          _ ≤ (2 : ℚ) ^ Nat.clog 2 ⌈(n : ℚ) / f⌉₊ := by exact_mod_cast hm
      rw [div_le_iff₀ hfQ, mul_comm] at h1
      exact_mod_cast h1
    · rw [← Nat.le_pow_iff_clog_le (by norm_num)]
      have h2 : n ≤ f * 2 ^ precisionOf f n := precisionOf_spec f n hf
      apply Nat.ceil_le.mpr
      rw [div_le_iff₀ hfQ, mul_comm]
      exact_mod_cast h2
  exact_mod_cast hnat

/-- Sum of the `freq` fields (line length once all entries are present). -/
def sumFreq (l : List CharCode) : ℕ := (l.map CharCode.freq).sum

theorem forall₂_mem_right {α β : Type} {S : α → β → Prop} :
    ∀ {l : List α} {l' : List β}, List.Forall₂ S l l' → ∀ b ∈ l', ∃ a ∈ l, S a b := by
  intro l l' h
  induction h with
  | nil => intro b hb; simp at hb
  | cons hS _ ih =>
    intro b hb
    rcases List.mem_cons.mp hb with h | h
    · subst h
      exact ⟨_, List.mem_cons_self _ _, hS⟩
    · rcases ih b h with ⟨a, ha, hab⟩
      exact ⟨a, List.mem_cons_of_mem _ ha, hab⟩

theorem pairwise_of_forall₂ {α β : Type} {S : α → β → Prop} {R : α → α → Prop}
    {R' : β → β → Prop}
    (compat : ∀ a a' b b', S a a' → S b b' → R a b → R' a' b') :
    ∀ {l : List α} {l' : List β}, List.Forall₂ S l l' → List.Pairwise R l →
      List.Pairwise R' l' := by
  intro l l' h
  induction h with
  | nil => intro; exact List.Pairwise.nil
  | cons hS hF ih =>
    intro hp
    rcases List.pairwise_cons.mp hp with ⟨hhead, htail⟩
    refine List.pairwise_cons.mpr ⟨?_, ih htail⟩
    intro b' hb'
    rcases forall₂_mem_right hF b' hb' with ⟨b, hb, hSb⟩
    exact compat _ _ _ _ hS hSb (hhead b hb)

theorem assignCodes_forall₂ (n : ℕ) :
    ∀ (cum : ℚ) (l : List CharCode),
      List.Forall₂ (fun e e' => e.character = e'.character ∧ e.freq = e'.freq)
        l (assignCodes n cum l) := by
  intro cum l
  induction l generalizing cum with
  | nil => exact List.Forall₂.nil
  | cons c rest ih => exact List.Forall₂.cons ⟨rfl, rfl⟩ (ih _)

theorem assignCodes_map_character (n : ℕ) :
    ∀ (cum : ℚ) (l : List CharCode),
      (assignCodes n cum l).map CharCode.character = l.map CharCode.character := by
  intro cum l
  induction l generalizing cum with
  | nil => rfl
  | cons c rest ih => simp [assignCodes, ih]

theorem initialAlphabet_map_character (line : List ℕ) :
    (initialAlphabet line).map CharCode.character =
      List.insertionSort (· ≤ ·) line.dedup := by
  unfold initialAlphabet
  rw [List.map_map]
  exact List.map_id _

theorem encodeAlphabet_map_character (line : List ℕ) :
    List.Perm ((encodeAlphabet line).map CharCode.character) line.dedup := by
  unfold encodeAlphabet
  rw [assignCodes_map_character]
  unfold sortedAlphabet
  refine List.Perm.trans ((List.perm_insertionSort sortLE _).map _) ?_
  rw [initialAlphabet_map_character line]
  exact List.perm_insertionSort _ _

theorem encodeAlphabet_nodup_character (line : List ℕ) :
    ((encodeAlphabet line).map CharCode.character).Nodup :=
  (encodeAlphabet_map_character line).nodup_iff.mpr line.nodup_dedup

theorem encodeAlphabet_pairwise_sortLE (line : List ℕ) :
    (encodeAlphabet line).Pairwise sortLE := by
  have hs : (sortedAlphabet line).Pairwise sortLE :=
    List.sorted_insertionSort sortLE (initialAlphabet line)
  refine pairwise_of_forall₂ ?_ (assignCodes_forall₂ line.length 0 (sortedAlphabet line)) hs
  intro a a' b b' ha hb hab
  unfold sortLE at *
  rw [compareFreqChar_false_iff] at *
  rw [← ha.1, ← ha.2, ← hb.1, ← hb.2]
  exact hab

theorem mem_assignCodes (n : ℕ) (hn : 0 < n) :
    ∀ (cum : ℚ) (l : List CharCode), ∀ e' ∈ assignCodes n cum l,
      ∃ (cum' : ℚ) (e : CharCode), e ∈ l ∧ e'.character = e.character ∧ e'.freq = e.freq ∧
        e'.code = decimalToBinary cum' (precisionOf e.freq n) ∧
        cum ≤ cum' ∧ cum' + (e.freq : ℚ) / n ≤ cum + (sumFreq l : ℚ) / n := by
  have hnQ : (0 : ℚ) < (n : ℚ) := by exact_mod_cast hn
  intro cum l
  induction l generalizing cum with
  | nil => intro e' h; simp [assignCodes] at h
  | cons c rest ih =>
    intro e' h
    rw [assignCodes] at h
    rcases List.mem_cons.mp h with h | h
    · subst h
      refine ⟨cum, c, List.mem_cons_self _ _, rfl, rfl, rfl, le_refl _, ?_⟩
      have hle : (c.freq : ℚ) ≤ (sumFreq (c :: rest) : ℚ) := by
        have : c.freq ≤ sumFreq (c :: rest) := by
          unfold sumFreq
          simp
        exact_mod_cast this
      have hdiv : (c.freq : ℚ) / n ≤ (sumFreq (c :: rest) : ℚ) / n := by
        apply div_le_div_of_nonneg_right hle hnQ.le
      linarith
    · rcases ih (cum + (c.freq : ℚ) / n) e' h with
        ⟨cum', e, hmem, hch, hfr, hcode, hlo, hhi⟩
      refine ⟨cum', e, List.mem_cons_of_mem _ hmem, hch, hfr, hcode, ?_, ?_⟩
      · have hpos : (0 : ℚ) ≤ (c.freq : ℚ) / n := by positivity
        linarith
      · have hsum : (sumFreq (c :: rest) : ℚ) / n = (c.freq : ℚ) / n + (sumFreq rest : ℚ) / n := by
          have : (sumFreq (c :: rest) : ℚ) = (c.freq : ℚ) + (sumFreq rest : ℚ) := by
            unfold sumFreq
            push_cast
            simp
          rw [this, add_div]
        rw [hsum]
        linarith

theorem mem_sortedAlphabet {line : List ℕ} {e : CharCode} (h : e ∈ sortedAlphabet line) :
    ∃ c, c ∈ line ∧ e.character = c ∧ e.freq = line.count c ∧ e.code = [] := by
  unfold sortedAlphabet at h
  have h2 : e ∈ initialAlphabet line := (List.perm_insertionSort sortLE _).mem_iff.mp h
  unfold initialAlphabet at h2
  rcases List.mem_map.mp h2 with ⟨c, hc, rfl⟩
  have : c ∈ line.dedup := (List.perm_insertionSort _ _).mem_iff.mp hc
  exact ⟨c, List.mem_dedup.mp this, rfl, rfl, rfl⟩

theorem mem_encodeAlphabet {line : List ℕ} (hne : line ≠ []) :
    ∀ e' ∈ encodeAlphabet line,
      ∃ cum', 1 ≤ e'.freq ∧ e'.freq ≤ line.length ∧ e'.character ∈ line ∧
        e'.code = decimalToBinary cum' (precisionOf e'.freq line.length) := by
  intro e' h
  have hn : 0 < line.length := List.length_pos.mpr hne
  unfold encodeAlphabet at h
  rcases mem_assignCodes line.length hn 0 (sortedAlphabet line) e' h with
    ⟨cum', e, hmem, hch, hfr, hcode, _, _⟩
  rcases mem_sortedAlphabet hmem with ⟨c, hcline, hec, hefr, _⟩
  refine ⟨cum', ?_, ?_, ?_, ?_⟩
  · rw [hfr, hefr]
    exact List.count_pos_iff.mpr hcline
  · rw [hfr, hefr]
    exact List.count_le_length _ _
  · rw [hch, hec]
    exact hcline
  · rw [hcode, hfr]

/-- C2.  Alphabet order: for every line, the alphabet produced by `encode`
is sorted by descending frequency with ties broken by descending byte
value, and between any two adjacent entries the comparator
`compareFreqChar` holds strictly. -/
theorem c2_alphabet_sorted (line : List ℕ) :
    List.Chain' (fun a b =>
      (b.freq < a.freq ∨ (a.freq = b.freq ∧ b.character < a.character)) ∧
      compareFreqChar a b = true) (encode line).1 := by
  have hpw : (encodeAlphabet line).Pairwise sortLE := encodeAlphabet_pairwise_sortLE line
  have hnd := encodeAlphabet_nodup_character line
  have hne : (encodeAlphabet line).Pairwise (fun a b => a.character ≠ b.character) :=
    List.pairwise_map.mp hnd
  have hcomb := hpw.and hne
  have : (encodeAlphabet line).Pairwise (fun a b =>
      (b.freq < a.freq ∨ (a.freq = b.freq ∧ b.character < a.character)) ∧
      compareFreqChar a b = true) := by
    refine hcomb.imp ?_
    intro a b hab
    rcases hab with ⟨hle, hne'⟩
    unfold sortLE at hle
    rw [compareFreqChar_false_iff] at hle
    rw [compareFreqChar_true_iff]
    omega
  exact this.chain'

theorem lookupCode_of_mem_map {l : List CharCode} {c : ℕ}
    (h : c ∈ l.map CharCode.character) :
    ∃ e, lookupCode l c = some e ∧ e.character = c := by
  unfold lookupCode
  induction l with
  | nil => simp at h
  | cons a l ih =>
    by_cases hac : a.character = c
    · exact ⟨a, List.find?_cons_of_pos _ (by simp [hac]), hac⟩
    · rcases List.mem_cons.mp h with h' | h'
      · exact absurd h'.symm hac
      · rcases ih h' with ⟨e, hfind, hchar⟩
        refine ⟨e, ?_, hchar⟩
        rw [List.find?_cons_of_neg _ (by simp [hac])]
        exact hfind

/-- C9.  Totality of the code lookup: every character occurring in the line
has an entry in the processed alphabet, so the concatenation building the
encoded line never takes the `none` branch of `lookupCode`. -/
theorem c9_lookup_total (line : List ℕ) (c : ℕ) (hc : c ∈ line) :
    ∃ e, lookupCode (encode line).1 c = some e ∧ e.character = c := by
  apply lookupCode_of_mem_map
  exact (encodeAlphabet_map_character line).mem_iff.mpr (List.mem_dedup.mpr hc)

/-- C9 witness at line "aab", character 98. -/
theorem c9_lookup_total_witness :
    (98 ∈ lineBytes "aab") ∧
    ∃ e, lookupCode (encode (lineBytes "aab")).1 98 = some e ∧ e.character = 98 :=
  ⟨by decide, c9_lookup_total (lineBytes "aab") 98 (by decide)⟩

/-- C3.  For every non-empty line, every alphabet entry's code length equals
`ceil(log2(1/probability))` with `probability = frequency / lineLength`
(`Int.clog 2` is that ceiling); in particular the single-symbol line "aaaa"
yields one entry of frequency 4 with empty code and empty encoded string. -/
theorem c3_code_length :
    (∀ (line : List ℕ), line ≠ [] → ∀ e ∈ (encode line).1,
      (e.code.length : ℤ) = Int.clog 2 ((line.length : ℚ) / (e.freq : ℚ))) ∧
    encode (lineBytes "aaaa") = ([⟨97, 4, []⟩], []) := by
  constructor
  · intro line hne e he
    rcases mem_encodeAlphabet hne e he with ⟨cum', hf1, hfn, _, hcode⟩
    rw [hcode, decimalToBinary_length]
    exact precisionOf_eq_intClog e.freq line.length hf1 hfn
  · rw [← encodeNum_eq]
    decide

/-- C3 witness: concrete entry of `encode "ab"` instantiating the length
law (length 1 = ⌈log₂ 2⌉). -/
theorem c3_code_length_witness :
    lineBytes "ab" ≠ [] ∧
    (⟨97, 1, ['1']⟩ : CharCode) ∈ (encode (lineBytes "ab")).1 ∧
    (((⟨97, 1, ['1']⟩ : CharCode).code.length : ℤ) =
      Int.clog 2 (((lineBytes "ab").length : ℚ) / ((⟨97, 1, ['1']⟩ : CharCode).freq : ℚ))) := by
  have hne : lineBytes "ab" ≠ [] := by decide
  have hmem : (⟨97, 1, ['1']⟩ : CharCode) ∈ (encode (lineBytes "ab")).1 := by
    rw [← encodeNum_eq]
    decide
  exact ⟨hne, hmem, c3_code_length.1 (lineBytes "ab") hne _ hmem⟩

/-- C1.  The worked "aab" example: frequencies a:2, b:1, alphabet order
[a, b], code "0" for a (precision ⌈log₂ (3/2)⌉ = 1 from cumulative
probability 0), code "10" for b (precision ⌈log₂ 3⌉ = 2 from cumulative
probability 2/3), and encoded bits "0010". -/
theorem c1_aab_encoding :
    encode (lineBytes "aab") =
      ([⟨97, 2, ['0']⟩, ⟨98, 1, ['1', '0']⟩], ['0', '0', '1', '0']) ∧
    Int.clog 2 ((3 : ℚ) / 2) = 1 ∧
    Int.clog 2 (3 : ℚ) = 2 ∧
    decimalToBinary 0 1 = ['0'] ∧
    decimalToBinary ((2 : ℚ) / 3) 2 = ['1', '0'] := by
  refine ⟨?_, ?_, ?_, ?_, ?_⟩
  · rw [← encodeNum_eq]
    decide
  · have h := precisionOf_eq_intClog 2 3 (by norm_num) (by norm_num)
    push_cast at h
    rw [← h]
    decide
  · have h := precisionOf_eq_intClog 1 3 (by norm_num) (by norm_num)
    push_cast at h
    rw [div_one] at h
    rw [← h]
    decide
  · have h := decimalToBinaryNum_eq 1 one_pos 1 0
    push_cast at h
    rw [div_one] at h
    rw [← h]
    decide
  · have h := decimalToBinaryNum_eq 3 (by norm_num) 2 2
    push_cast at h
    rw [← h]
    decide

/-- C8.  A negative code precision is rejected as a fatal input-validation
error by `decimalToBinaryChecked` (the throwing variant of
src/src/sync/mutex.cpp), and for probabilities in (0, 1] the computed
precision `ceil(log2(1/probability))` is nonnegative, so the error branch
is unreachable. -/
theorem c8_negative_precision_error :
    (∀ (d : ℚ) (p : ℤ), p < 0 →
      decimalToBinaryChecked d p = .error "Precision cannot be negative") ∧
    (∀ prob : ℚ, 0 < prob → prob ≤ 1 →
      0 ≤ Int.clog 2 (1 / prob) ∧
      ∀ d : ℚ, decimalToBinaryChecked d (Int.clog 2 (1 / prob)) =
        .ok (decimalToBinary d (Int.clog 2 (1 / prob)).toNat)) := by
  constructor
  · intro d p hp
    unfold decimalToBinaryChecked
    rw [if_pos hp]
  · intro prob h0 h1
    have hge : (1 : ℚ) ≤ 1 / prob := by
      rw [le_div_iff₀ h0, one_mul]
      exact h1
    have hnonneg : 0 ≤ Int.clog 2 (1 / prob) := by
      rw [Int.clog_of_one_le_right _ hge]
      exact Int.natCast_nonneg _
    refine ⟨hnonneg, ?_⟩
    intro d
    unfold decimalToBinaryChecked
    rw [if_neg (not_lt.mpr hnonneg)]

/-- C8 witness: the error branch at precision -1, and nonnegativity of the
precision for probability 1/2. -/
theorem c8_negative_precision_error_witness :
    ((-1 : ℤ) < 0 ∧
      decimalToBinaryChecked 0 (-1) = .error "Precision cannot be negative") ∧
    ((0 : ℚ) < 1 / 2 ∧ (1 : ℚ) / 2 ≤ 1 ∧ 0 ≤ Int.clog 2 (1 / ((1 : ℚ) / 2))) :=
  ⟨⟨by norm_num, c8_negative_precision_error.1 0 (-1) (by norm_num)⟩,
    by norm_num, by norm_num,
    (c8_negative_precision_error.2 (1 / 2) (by norm_num) (by norm_num)).1⟩

/-- Numeric value of a binary digit character. -/
def bitVal (c : Char) : ℕ := if c = '1' then 1 else 0

/-- Value of a '0'/'1' string read as a big-endian binary numeral, started
from accumulator `acc`. -/
def binValFrom (acc : ℕ) (l : List Char) : ℕ :=
  l.foldl (fun a c => 2 * a + bitVal c) acc

/-- Value of a '0'/'1' string read as a big-endian binary numeral. -/
def binVal (l : List Char) : ℕ := binValFrom 0 l

theorem bitVal_le (c : Char) : bitVal c ≤ 1 := by
  unfold bitVal
  split <;> norm_num

theorem binValFrom_eq :
    ∀ (l : List Char) (acc : ℕ), binValFrom acc l = acc * 2 ^ l.length + binVal l := by
  intro l
  induction l with
  | nil => intro acc; simp [binValFrom, binVal]
  | cons c l ih =>
    intro acc
    have h1 : binValFrom acc (c :: l) = binValFrom (2 * acc + bitVal c) l := rfl
    have h2 : binVal (c :: l) = binValFrom (bitVal c) l := by
      simp [binVal, binValFrom]
    rw [h1, ih, h2, ih (bitVal c)]
    simp only [List.length_cons]
    ring

theorem binVal_cons (c : Char) (l : List Char) :
    binVal (c :: l) = bitVal c * 2 ^ l.length + binVal l := by
  have h2 : binVal (c :: l) = binValFrom (bitVal c) l := by
    simp [binVal, binValFrom]
  rw [h2, binValFrom_eq]

theorem binVal_lt (l : List Char) : binVal l < 2 ^ l.length := by
  induction l with
  | nil => simp [binVal, binValFrom]
  | cons c l ih =>
    rw [binVal_cons]
    have := bitVal_le c
    simp only [List.length_cons, pow_succ]
    nlinarith

theorem binVal_append (a b : List Char) :
    binVal (a ++ b) = binVal a * 2 ^ b.length + binVal b := by
  have : binVal (a ++ b) = binValFrom (binVal a) b := by
    simp [binVal, binValFrom, List.foldl_append]
  rw [this, binValFrom_eq]

theorem binVal_replicate_zero (k : ℕ) : binVal (List.replicate k '0') = 0 := by
  induction k with
  | zero => rfl
  | succ k ih =>
    rw [List.replicate_succ, binVal_cons, ih]
    simp [bitVal]

/-- The code produced by `decimalToBinary d p` is the floor of `d * 2 ^ p`
read in binary: its value `v` satisfies `v ≤ d * 2 ^ p < v + 1`. -/
theorem decimalToBinary_bounds (p : ℕ) :
    ∀ d : ℚ, 0 ≤ d → d < 1 →
      (binVal (decimalToBinary d p) : ℚ) ≤ d * 2 ^ p ∧
      d * 2 ^ p < (binVal (decimalToBinary d p) : ℚ) + 1 := by
  induction p with
  | zero =>
    intro d h0 h1
    simp only [decimalToBinary, pow_zero, mul_one]
    constructor
    · simpa [binVal, binValFrom] using h0
    · simp only [binVal, binValFrom, List.foldl_nil, Nat.cast_zero, zero_add]
      exact h1
  | succ p ih =>
    intro d h0 h1
    rw [decimalToBinary]
    by_cases hd : 0 < d
    · rw [if_pos hd]
      by_cases h2 : 1 ≤ 2 * d
      · rw [if_pos h2]
        have hrec := ih (2 * d - 1) (by linarith) (by linarith)
        have hlen : (decimalToBinary (2 * d - 1) p).length = p :=
          decimalToBinary_length p _
        have hbv : (binVal ('1' :: decimalToBinary (2 * d - 1) p) : ℚ) =
            2 ^ p + (binVal (decimalToBinary (2 * d - 1) p) : ℚ) := by
          rw [binVal_cons, hlen]
          push_cast [bitVal]
          norm_num
        rw [hbv, pow_succ]
        constructor
        · have := hrec.1
          have hpow : (0 : ℚ) < 2 ^ p := by positivity
          nlinarith
        · have := hrec.2
          have hpow : (0 : ℚ) < 2 ^ p := by positivity
          nlinarith
      · rw [if_neg h2]
        have hrec := ih (2 * d) (by linarith) (by linarith)
        have hlen : (decimalToBinary (2 * d) p).length = p :=
          decimalToBinary_length p _
        have hbv : (binVal ('0' :: decimalToBinary (2 * d) p) : ℚ) =
            (binVal (decimalToBinary (2 * d) p) : ℚ) := by
          rw [binVal_cons, hlen]
          push_cast [bitVal]
          norm_num
        rw [hbv, pow_succ]
        constructor
        · have := hrec.1
          nlinarith
        · have := hrec.2
          nlinarith
    · rw [if_neg hd]
      have hd0 : d = 0 := le_antisymm (not_lt.mp hd) h0
      subst hd0
      rw [binVal_replicate_zero]
      norm_num

/-- If the code of `Fa` (at its own precision) is an initial segment of the
code of `Fb`, both fractions lie in the same dyadic interval of width
`2 ^ (-pa)`, hence are closer than that width. -/
theorem close_of_starts (Fa Fb : ℚ) (pa pb : ℕ)
    (ha0 : 0 ≤ Fa) (ha1 : Fa < 1) (hb0 : 0 ≤ Fb) (hb1 : Fb < 1)
    (hstart : ∃ t, decimalToBinary Fa pa ++ t = decimalToBinary Fb pb) :
    |Fa - Fb| * 2 ^ pa < 1 := by
  obtain ⟨t, ht⟩ := hstart
  have hlena : (decimalToBinary Fa pa).length = pa := decimalToBinary_length pa Fa
  have hlenb : (decimalToBinary Fb pb).length = pb := decimalToBinary_length pb Fb
  have hpb : pb = pa + t.length := by
    rw [← hlena, ← hlenb, ← ht]
    simp
  have hA := decimalToBinary_bounds pa Fa ha0 ha1
  have hB := decimalToBinary_bounds pb Fb hb0 hb1
  have hvb : binVal (decimalToBinary Fb pb) =
      binVal (decimalToBinary Fa pa) * 2 ^ t.length + binVal t := by
    rw [← ht, binVal_append]
  have hvt : binVal t < 2 ^ t.length := binVal_lt t
  set va := binVal (decimalToBinary Fa pa) with hva_def
  set vb := binVal (decimalToBinary Fb pb) with hvb_def
  have hD : (0 : ℚ) < 2 ^ t.length := by positivity
  have hsplit : (2 : ℚ) ^ pb = 2 ^ pa * 2 ^ t.length := by
    rw [hpb, pow_add]
  -- upper bound for Fb * 2 ^ pa
  have hub : Fb * 2 ^ pa < (va : ℚ) + 1 := by
    have h1 : Fb * 2 ^ pb < (vb : ℚ) + 1 := hB.2
    have h2 : (vb : ℚ) + 1 ≤ ((va : ℚ) + 1) * 2 ^ t.length := by
      have hvtQ : (binVal t : ℚ) + 1 ≤ 2 ^ t.length := by
        exact_mod_cast hvt
      have : (vb : ℚ) = (va : ℚ) * 2 ^ t.length + (binVal t : ℚ) := by
        exact_mod_cast hvb
      rw [this]
      nlinarith
    have h3 : Fb * 2 ^ pa * 2 ^ t.length < ((va : ℚ) + 1) * 2 ^ t.length := by
      calc Fb * 2 ^ pa * 2 ^ t.length = Fb * 2 ^ pb := by rw [hsplit]; ring
        _ < (vb : ℚ) + 1 := h1
        _ ≤ ((va : ℚ) + 1) * 2 ^ t.length := h2
    exact lt_of_mul_lt_mul_right (by linarith [h3]) hD.le
  -- lower bound for Fb * 2 ^ pa
  have hlb : (va : ℚ) ≤ Fb * 2 ^ pa := by
    have h1 : (vb : ℚ) ≤ Fb * 2 ^ pb := hB.1
    have h2 : (va : ℚ) * 2 ^ t.length ≤ (vb : ℚ) := by
      have h4 : (vb : ℚ) = (va : ℚ) * 2 ^ t.length + (binVal t : ℚ) := by
        exact_mod_cast hvb
      rw [h4]
      have h5 : (0 : ℚ) ≤ (binVal t : ℚ) := by positivity
      linarith
    have h3 : (va : ℚ) * 2 ^ t.length ≤ Fb * 2 ^ pa * 2 ^ t.length := by
      calc (va : ℚ) * 2 ^ t.length ≤ (vb : ℚ) := h2
        _ ≤ Fb * 2 ^ pb := h1
        _ = Fb * 2 ^ pa * 2 ^ t.length := by rw [hsplit]; ring
    exact le_of_mul_le_mul_right h3 hD
  have haub : Fa * 2 ^ pa < (va : ℚ) + 1 := hA.2
  have halb : (va : ℚ) ≤ Fa * 2 ^ pa := hA.1
  have habs : |(Fa - Fb) * 2 ^ pa| < 1 := by
    rw [abs_lt]
    constructor
    · nlinarith
    · nlinarith
  have hpow : (0 : ℚ) ≤ (2 : ℚ) ^ pa := by positivity
  calc |Fa - Fb| * 2 ^ pa = |Fa - Fb| * |(2 : ℚ) ^ pa| := by rw [abs_of_nonneg hpow]
    _ = |(Fa - Fb) * 2 ^ pa| := (abs_mul _ _).symm
    _ < 1 := habs

theorem assignCodes_pairwise_separated (n : ℕ) (hn : 0 < n) :
    ∀ (l : List CharCode) (cum : ℚ),
      (∀ e ∈ l, 1 ≤ e.freq) →
      l.Pairwise (fun a b => b.freq ≤ a.freq) →
      0 ≤ cum → cum + (sumFreq l : ℚ) / n ≤ 1 →
      (assignCodes n cum l).Pairwise (fun a b =>
        (¬ ∃ t, a.code ++ t = b.code) ∧ (¬ ∃ t, b.code ++ t = a.code)) := by
  have hnQ : (0 : ℚ) < (n : ℚ) := by exact_mod_cast hn
  intro l
  induction l with
  | nil => intro cum _ _ _ _; simp [assignCodes]
  | cons c rest ih =>
    intro cum hfreq hsorted h0 h1
    rw [assignCodes]
    rcases List.pairwise_cons.mp hsorted with ⟨hhead, htail⟩
    have hc1 : 1 ≤ c.freq := hfreq c (List.mem_cons_self _ _)
    have hcp : (0 : ℚ) < (c.freq : ℚ) / n := by
      apply div_pos _ hnQ
      exact_mod_cast hc1
    have hsum_cons : (sumFreq (c :: rest) : ℚ) / n =
        (c.freq : ℚ) / n + (sumFreq rest : ℚ) / n := by
      have : (sumFreq (c :: rest) : ℚ) = (c.freq : ℚ) + (sumFreq rest : ℚ) := by
        unfold sumFreq
        push_cast
        simp
      rw [this, add_div]
    rw [hsum_cons] at h1
    have hrest0 : (0 : ℚ) ≤ (sumFreq rest : ℚ) / n := by positivity
    refine List.pairwise_cons.mpr ⟨?_, ?_⟩
    · intro b hb
      rcases mem_assignCodes n hn _ rest b hb with ⟨F, e, hmem, hch, hfr, hcode, hlo, hhi⟩
      have he1 : 1 ≤ e.freq := hfreq e (List.mem_cons_of_mem _ hmem)
      have hef : e.freq ≤ c.freq := hhead e hmem
      have hep : (0 : ℚ) < (e.freq : ℚ) / n := by
        apply div_pos _ hnQ
        exact_mod_cast he1
      have hefQ : (e.freq : ℚ) / n ≤ (c.freq : ℚ) / n := by
        apply div_le_div_of_nonneg_right _ hnQ.le
        exact_mod_cast hef
      have hcum1 : cum < 1 := by linarith
      have hF0 : 0 ≤ F := by linarith
      have hF1 : F < 1 := by linarith
      have hgap : cum + (c.freq : ℚ) / n ≤ F := hlo
      -- width of the head's dyadic interval is at most its probability
      have hwc : (n : ℚ) ≤ (c.freq : ℚ) * 2 ^ precisionOf c.freq n := by
        exact_mod_cast precisionOf_spec c.freq n (by omega)
      have hwe : (n : ℚ) ≤ (e.freq : ℚ) * 2 ^ precisionOf e.freq n := by
        exact_mod_cast precisionOf_spec e.freq n (by omega)
      have hgapc : (1 : ℚ) ≤ (F - cum) * 2 ^ precisionOf c.freq n := by
        have hstep : (1 : ℚ) ≤ ((c.freq : ℚ) / n) * 2 ^ precisionOf c.freq n := by
          rw [div_mul_eq_mul_div, le_div_iff₀ hnQ, one_mul]
          exact hwc
        have hmono : ((c.freq : ℚ) / n) * 2 ^ precisionOf c.freq n ≤
            (F - cum) * 2 ^ precisionOf c.freq n := by
          apply mul_le_mul_of_nonneg_right (by linarith) (by positivity)
        linarith
      have hgape : (1 : ℚ) ≤ (F - cum) * 2 ^ precisionOf e.freq n := by
        have hstep : (1 : ℚ) ≤ ((e.freq : ℚ) / n) * 2 ^ precisionOf e.freq n := by
          rw [div_mul_eq_mul_div, le_div_iff₀ hnQ, one_mul]
          exact hwe
        have hmono : ((e.freq : ℚ) / n) * 2 ^ precisionOf e.freq n ≤
            (F - cum) * 2 ^ precisionOf e.freq n := by
          apply mul_le_mul_of_nonneg_right (by linarith) (by positivity)
        linarith
      constructor
      · rintro ⟨t, ht⟩
        rw [hcode] at ht
        have hclose := close_of_starts cum F (precisionOf c.freq n) (precisionOf e.freq n)
          h0 hcum1 hF0 hF1 ⟨t, ht⟩
        have habs : |cum - F| = F - cum := by
          rw [abs_of_nonpos (by linarith)]
          ring
        rw [habs] at hclose
        linarith
      · rintro ⟨t, ht⟩
        rw [hcode] at ht
        have hclose := close_of_starts F cum (precisionOf e.freq n) (precisionOf c.freq n)
          hF0 hF1 h0 hcum1 ⟨t, ht⟩
        have habs : |F - cum| = F - cum := by
          rw [abs_of_nonneg (by linarith)]
        rw [habs] at hclose
        linarith
    · apply ih (cum + (c.freq : ℚ) / n)
      · intro e he
        exact hfreq e (List.mem_cons_of_mem _ he)
      · exact htail
      · linarith
      · linarith

theorem sumFreq_sortedAlphabet (line : List ℕ) :
    sumFreq (sortedAlphabet line) = line.length := by
  unfold sumFreq
  have hperm : List.Perm ((sortedAlphabet line).map CharCode.freq)
      ((initialAlphabet line).map CharCode.freq) :=
    (List.perm_insertionSort sortLE _).map _
  rw [hperm.sum_eq]
  unfold initialAlphabet
  rw [List.map_map]
  have hperm2 : List.Perm ((List.insertionSort (· ≤ ·) line.dedup).map
      fun c => line.count c) (line.dedup.map fun c => line.count c) :=
    (List.perm_insertionSort _ _).map _
  have : (CharCode.freq ∘ fun c => (⟨c, line.count c, []⟩ : CharCode)) =
      fun c => line.count c := rfl
  rw [this, hperm2.sum_eq]
  exact line.sum_map_count_dedup_eq_length

theorem sortedAlphabet_freq_pos (line : List ℕ) :
    ∀ e ∈ sortedAlphabet line, 1 ≤ e.freq := by
  intro e he
  rcases mem_sortedAlphabet he with ⟨c, hc, _, hfr, _⟩
  rw [hfr]
  exact List.count_pos_iff.mpr hc

theorem sortedAlphabet_freq_anti (line : List ℕ) :
    (sortedAlphabet line).Pairwise fun a b => b.freq ≤ a.freq := by
  have := List.sorted_insertionSort sortLE (initialAlphabet line)
  refine this.imp ?_
  intro a b hab
  unfold sortLE at hab
  rw [compareFreqChar_false_iff] at hab
  omega

/-- C5.  On every line with at least two distinct characters the assigned
codes are mutually distinguishable: no entry's code is an initial segment
of a different entry's code (Shannon codes form a set where none starts
another, i.e. they are uniquely decodable). -/
theorem c5_codes_separated (line : List ℕ) (h2 : 2 ≤ line.dedup.length) :
    (encode line).1.Pairwise fun a b =>
      (¬ ∃ t, a.code ++ t = b.code) ∧ (¬ ∃ t, b.code ++ t = a.code) := by
  have hne : line ≠ [] := by
    intro h
    subst h
    simp at h2
  have hn : 0 < line.length := List.length_pos.mpr hne
  have hnQ : (0 : ℚ) < (line.length : ℚ) := by exact_mod_cast hn
  have hsum : (0 : ℚ) + (sumFreq (sortedAlphabet line) : ℚ) / line.length ≤ 1 := by
    rw [sumFreq_sortedAlphabet, zero_add, div_self (ne_of_gt hnQ)]
  exact assignCodes_pairwise_separated line.length hn (sortedAlphabet line) 0
    (sortedAlphabet_freq_pos line) (sortedAlphabet_freq_anti line) (le_refl 0) hsum

/-- C5 witness at line "aab" (two distinct characters). -/
theorem c5_codes_separated_witness :
    2 ≤ (lineBytes "aab").dedup.length ∧
    (encode (lineBytes "aab")).1.Pairwise fun a b =>
      (¬ ∃ t, a.code ++ t = b.code) ∧ (¬ ∃ t, b.code ++ t = a.code) :=
  ⟨by decide, c5_codes_separated (lineBytes "aab") (by decide)⟩

/-- `struct EncodedMsg { std::string line; std::vector<CharCode>
charCodeVec; std::string encodedLine; }` from server.cpp /
multiThreading.cpp. -/
structure EncodedMsg where
  line : List ℕ
  charCodeVec : List CharCode
  encodedLine : List Char
deriving DecidableEq

/-- `void shannonCode(EncodedMsg& msg)` of server.cpp lines 62-107: counts
the line's characters, pushes the (character, frequency) entries onto
`msg.charCodeVec`, sorts it with `compareFreqChar`, assigns every entry its
code, and appends the concatenation of the line's codes to
`msg.encodedLine`.  The result value carries the new state of `msg`. -/
def shannonCodeMsg (msg : EncodedMsg) : EncodedMsg :=
  let assigned := assignCodes msg.line.length 0
    (List.insertionSort sortLE (msg.charCodeVec ++ initialAlphabet msg.line))
  { line := msg.line
    charCodeVec := assigned
    encodedLine := msg.encodedLine ++ encodeLineWith assigned msg.line }

/-- C10.  Frame property of the encode step: `shannonCode(EncodedMsg&)`
leaves the `line` field unchanged and only fills `charCodeVec` (the sorted,
code-carrying alphabet) and `encodedLine` (the appended encoding). -/
theorem c10_shannonCode_frame (msg : EncodedMsg) :
    (shannonCodeMsg msg).line = msg.line ∧
    (shannonCodeMsg msg).charCodeVec = assignCodes msg.line.length 0
      (List.insertionSort sortLE (msg.charCodeVec ++ initialAlphabet msg.line)) ∧
    (shannonCodeMsg msg).encodedLine = msg.encodedLine ++
      encodeLineWith (shannonCodeMsg msg).charCodeVec msg.line :=
  ⟨rfl, rfl, rfl⟩

theorem shannonCodeMsg_fresh (line : List ℕ) :
    shannonCodeMsg ⟨line, [], []⟩ = ⟨line, (encode line).1, (encode line).2⟩ := rfl

/-- `NetworkClient::sendMessage` of src/src/network/client.cpp lines
98-106: `strncpy` the line into a 32-byte buffer (copying at most 31
characters, NUL-padding shorter lines), force `buffer[31] = 0`, and write
all 32 bytes. -/
def sendMessageBuffer (line : List ℕ) : List ℕ :=
  let copied := (line.takeWhile (· ≠ 0)).take 31
  copied ++ List.replicate (31 - copied.length) 0 ++ [0]

/-- The client's send step: the only `throw` in the C++ guards the socket
write, which the byte-level model performs unconditionally; no code path
inspects the line's length. -/
def sendMessage (line : List ℕ) : Except String (List ℕ) :=
  .ok (sendMessageBuffer line)

/-- The C-string the receiving side reads out of a byte buffer: everything
before the first NUL. -/
def requestPayload (buf : List ℕ) : List ℕ := buf.takeWhile (· ≠ 0)

theorem takeWhile_append_all {α : Type} (p : α → Bool) :
    ∀ (l1 l2 : List α), (∀ x ∈ l1, p x = true) →
      List.takeWhile p (l1 ++ l2) = l1 ++ List.takeWhile p l2 := by
  intro l1
  induction l1 with
  | nil => intro l2 _; simp
  | cons a l1 ih =>
    intro l2 hall
    rw [List.cons_append, List.takeWhile_cons_of_pos (hall a (List.mem_cons_self _ _)),
      ih l2 (fun x hx => hall x (List.mem_cons_of_mem _ hx)), List.cons_append]

/-- C6.  The client sends exactly 32 bytes for every line; the usable
payload (bytes before the NUL terminator) is the line truncated to at most
31 bytes, and no error is raised for long lines. -/
theorem c6_request_32_bytes (line : List ℕ) (h0 : 0 ∉ line) :
    (sendMessageBuffer line).length = 32 ∧
    requestPayload (sendMessageBuffer line) = line.take 31 ∧
    (requestPayload (sendMessageBuffer line)).length ≤ 31 ∧
    sendMessage line = .ok (sendMessageBuffer line) := by
  have hall : ∀ x ∈ line, (fun c => decide (c ≠ 0)) x = true := by
    intro x hx
    simp only [decide_eq_true_eq]
    intro hx0
    exact h0 (hx0 ▸ hx)
  have htw : line.takeWhile (· ≠ 0) = line := List.takeWhile_eq_self_iff.mpr hall
  have hlen : ((line.takeWhile (· ≠ 0)).take 31).length ≤ 31 := by
    rw [htw]
    exact le_trans (List.length_take_le 31 line) (le_refl _)
  refine ⟨?_, ?_, ?_, rfl⟩
  · unfold sendMessageBuffer
    simp only [List.length_append, List.length_replicate, List.length_cons,
      List.length_nil]
    omega
  · unfold requestPayload sendMessageBuffer
    have htake : ∀ x ∈ (line.takeWhile (· ≠ 0)).take 31,
        (fun c => decide (c ≠ 0)) x = true := by
      intro x hx
      exact hall x (List.mem_of_mem_take (by rw [htw] at hx; exact hx))
    rw [List.append_assoc, takeWhile_append_all _ _ _ htake, htw]
    have hz : List.takeWhile (fun c => decide (c ≠ 0))
        (List.replicate (31 - (List.take 31 line).length) 0 ++ [0]) = [] := by
      cases hk : 31 - (List.take 31 line).length with
      | zero => simp
      | succ k =>
        rw [List.replicate_succ, List.cons_append,
          List.takeWhile_cons_of_neg (by simp)]
    rw [hz, List.append_nil]
  · unfold requestPayload sendMessageBuffer
    have htake : ∀ x ∈ (line.takeWhile (· ≠ 0)).take 31,
        (fun c => decide (c ≠ 0)) x = true := by
      intro x hx
      exact hall x (List.mem_of_mem_take (by rw [htw] at hx; exact hx))
    rw [List.append_assoc, takeWhile_append_all _ _ _ htake]
    have hz : List.takeWhile (fun c => decide (c ≠ 0))
        (List.replicate (31 - ((line.takeWhile (· ≠ 0)).take 31).length) 0 ++ [0]) = [] := by
      cases hk : 31 - ((line.takeWhile (· ≠ 0)).take 31).length with
      | zero => simp
      | succ k =>
        rw [List.replicate_succ, List.cons_append,
          List.takeWhile_cons_of_neg (by simp)]
    rw [hz, List.append_nil]
    exact hlen

/-- C6 witness: a 35-byte line is truncated to 31 usable bytes inside the
fixed 32-byte request. -/
theorem c6_request_32_bytes_witness :
    (0 ∉ lineBytes "abcdefghijklmnopqrstuvwxyz0123456") ∧
    ((sendMessageBuffer (lineBytes "abcdefghijklmnopqrstuvwxyz0123456")).length = 32 ∧
     requestPayload (sendMessageBuffer (lineBytes "abcdefghijklmnopqrstuvwxyz0123456")) =
       (lineBytes "abcdefghijklmnopqrstuvwxyz0123456").take 31 ∧
     (requestPayload (sendMessageBuffer (lineBytes "abcdefghijklmnopqrstuvwxyz0123456"))).length ≤ 31 ∧
     sendMessage (lineBytes "abcdefghijklmnopqrstuvwxyz0123456") =
       .ok (sendMessageBuffer (lineBytes "abcdefghijklmnopqrstuvwxyz0123456"))) :=
  ⟨by decide, c6_request_32_bytes (lineBytes "abcdefghijklmnopqrstuvwxyz0123456") (by decide)⟩

/-- A C++ `int` written to the byte stream as 4 bytes in x86 (little
endian) order, as both server.cpp and client.cpp do with
`write(sockfd, &v, sizeof(int))`. -/
def int32Bytes (v : ℕ) : List ℕ :=
  [v % 256, v / 256 % 256, v / 65536 % 256, v / 16777216 % 256]

/-- `read(sockfd, &v, sizeof(int))` on the client: consume 4 bytes,
little endian. -/
def readInt32 : List ℕ → Option (ℕ × List ℕ)
  | b0 :: b1 :: b2 :: b3 :: rest =>
    some (b0 + 256 * b1 + 65536 * b2 + 16777216 * b3, rest)
  | _ => none

/-- `read(sockfd, buffer, k)`: consume `k` raw bytes. -/
def readBytes (k : ℕ) (s : List ℕ) : Option (List ℕ × List ℕ) :=
  if k ≤ s.length then some (s.take k, s.drop k) else none

/-- One alphabet entry on the wire (server.cpp lines 192-222): the
character byte, the frequency, the code length, then the code as ASCII
bytes. -/
def serializeEntry (e : CharCode) : List ℕ :=
  e.character % 256 ::
    (int32Bytes e.freq ++ int32Bytes e.code.length ++
      e.code.map (fun ch => ch.toNat % 256))

def serializeEntries : List CharCode → List ℕ
  | [] => []
  | e :: rest => serializeEntry e ++ serializeEntries rest

/-- The whole response (server.cpp lines 183-243): alphabet size, the
entries, the encoded length, the encoded bit characters. -/
def serializeResponse (alpha : List CharCode) (encoded : List Char) : List ℕ :=
  int32Bytes alpha.length ++ serializeEntries alpha ++
    int32Bytes encoded.length ++ encoded.map (fun ch => ch.toNat % 256)

/-- The client's entry-reading loop (client.cpp lines 100-143); each
received code buffer is NUL-terminated and converted through
`std::string`, hence read up to the first NUL. -/
def parseEntries : ℕ → List ℕ → Option (List CharCode × List ℕ)
  | 0, s => some ([], s)
  | _ + 1, [] => none
  | k + 1, c :: s1 =>
    (readInt32 s1).bind fun p2 =>
      (readInt32 p2.2).bind fun p3 =>
        (readBytes p3.1 p3.2).bind fun p4 =>
          (parseEntries k p4.2).bind fun p5 =>
            some (⟨c, p2.1, (p4.1.takeWhile (· ≠ 0)).map Char.ofNat⟩ :: p5.1, p5.2)

/-- The client's full response parse (client.cpp lines 87-173): alphabet
size, entries, encoded size, encoded bytes. -/
def parseResponse (s : List ℕ) : Option (List CharCode × List Char) :=
  (readInt32 s).bind fun p1 =>
    (parseEntries p1.1 p1.2).bind fun p2 =>
      (readInt32 p2.2).bind fun p3 =>
        (readBytes p3.1 p3.2).bind fun p4 =>
          some (p2.1, (p4.1.takeWhile (· ≠ 0)).map Char.ofNat)

/-- One forked handler of server.cpp lines 166-243: read the 32-byte
request, take its C-string payload, run `shannonCode`, serialize. -/
def serverHandle (request : List ℕ) : List ℕ :=
  let msg := shannonCodeMsg ⟨requestPayload request, [], []⟩
  serializeResponse msg.charCodeVec msg.encodedLine

/-- One client task: build the 32-byte request, let the server handle it,
parse the response. -/
def clientRun (line : List ℕ) : Option (List CharCode × List Char) :=
  parseResponse (serverHandle (sendMessageBuffer line))

theorem readInt32_int32Bytes (v : ℕ) (hv : v < 4294967296) (rest : List ℕ) :
    readInt32 (int32Bytes v ++ rest) = some (v, rest) := by
  have hval : v % 256 + 256 * (v / 256 % 256) + 65536 * (v / 65536 % 256) +
      16777216 * (v / 16777216 % 256) = v := by omega
  simp [int32Bytes, readInt32, hval]

theorem readBytes_exact (b rest : List ℕ) :
    readBytes b.length (b ++ rest) = some (b, rest) := by
  unfold readBytes
  rw [if_pos]
  · rw [List.take_left, List.drop_left]
  · rw [List.length_append]
    omega

theorem code_bytes_roundtrip (code : List Char)
    (hc : ∀ ch ∈ code, ch = '0' ∨ ch = '1') :
    ((code.map (fun ch => ch.toNat % 256)).takeWhile (· ≠ 0)).map Char.ofNat = code := by
  have hall : ∀ x ∈ code.map (fun ch => ch.toNat % 256),
      (fun c => decide (c ≠ 0)) x = true := by
    intro x hx
    rcases List.mem_map.mp hx with ⟨ch, hch, rfl⟩
    rcases hc ch hch with h | h <;> subst h <;> decide
  rw [List.takeWhile_eq_self_iff.mpr hall, List.map_map]
  have hid : ∀ ch ∈ code, (Char.ofNat ∘ fun ch => ch.toNat % 256) ch = id ch := by
    intro ch hch
    rcases hc ch hch with h | h <;> subst h <;> decide
  rw [List.map_congr_left hid, List.map_id]

theorem parse_serializeEntries :
    ∀ (l : List CharCode) (rest : List ℕ),
      (∀ e ∈ l, e.character < 256 ∧ e.freq < 4294967296 ∧
        e.code.length < 4294967296 ∧ ∀ ch ∈ e.code, ch = '0' ∨ ch = '1') →
      parseEntries l.length (serializeEntries l ++ rest) = some (l, rest) := by
  intro l
  induction l with
  | nil => intro rest _; rfl
  | cons e l ih =>
    intro rest hcond
    obtain ⟨hch, hfr, hlen, hcode⟩ := hcond e (List.mem_cons_self _ _)
    have hb1 : serializeEntries (e :: l) ++ rest =
        (e.character % 256) :: (int32Bytes e.freq ++ (int32Bytes e.code.length ++
          (e.code.map (fun ch => ch.toNat % 256) ++ (serializeEntries l ++ rest)))) := by
      rw [serializeEntries, serializeEntry]
      simp [List.append_assoc]
    rw [hb1, List.length_cons, parseEntries,
      readInt32_int32Bytes e.freq hfr, Option.some_bind,
      readInt32_int32Bytes e.code.length hlen, Option.some_bind]
    have hcb : (e.code.map (fun ch => ch.toNat % 256)).length = e.code.length :=
      List.length_map _ _
    rw [show readBytes e.code.length
        (e.code.map (fun ch => ch.toNat % 256) ++ (serializeEntries l ++ rest)) =
        some (e.code.map (fun ch => ch.toNat % 256), serializeEntries l ++ rest) by
      rw [← hcb]
      exact readBytes_exact _ _]
    rw [Option.some_bind,
      ih rest (fun e' he' => hcond e' (List.mem_cons_of_mem _ he')), Option.some_bind]
    rw [code_bytes_roundtrip e.code hcode, Nat.mod_eq_of_lt hch]

theorem parse_serializeResponse (alpha : List CharCode) (encoded : List Char)
    (hsz : alpha.length < 4294967296)
    (hal : ∀ e ∈ alpha, e.character < 256 ∧ e.freq < 4294967296 ∧
      e.code.length < 4294967296 ∧ ∀ ch ∈ e.code, ch = '0' ∨ ch = '1')
    (henc : ∀ ch ∈ encoded, ch = '0' ∨ ch = '1')
    (hesz : encoded.length < 4294967296) :
    parseResponse (serializeResponse alpha encoded) = some (alpha, encoded) := by
  unfold parseResponse serializeResponse
  rw [List.append_assoc, List.append_assoc,
    readInt32_int32Bytes alpha.length hsz, Option.some_bind,
    parse_serializeEntries alpha _ hal, Option.some_bind,
    readInt32_int32Bytes encoded.length hesz, Option.some_bind]
  have hcb : (encoded.map (fun ch => ch.toNat % 256)).length = encoded.length :=
    List.length_map _ _
  rw [show readBytes encoded.length (encoded.map fun ch => ch.toNat % 256) =
      some (encoded.map fun ch => ch.toNat % 256, []) by
    rw [← hcb, ← List.append_nil (encoded.map fun ch => ch.toNat % 256)]
    have := readBytes_exact (encoded.map fun ch => ch.toNat % 256) []
    simpa using this]
  rw [Option.some_bind, code_bytes_roundtrip encoded henc]

theorem precisionOf_le (f n : ℕ) (hf : 0 < f) : precisionOf f n ≤ n := by
  apply precisionOf_min
  have h1 : n ≤ 2 ^ n := Nat.le_of_lt (Nat.lt_two_pow n)
  calc n ≤ 2 ^ n := h1
    _ = 1 * 2 ^ n := by ring
    _ ≤ f * 2 ^ n := Nat.mul_le_mul_right _ hf

theorem encodeAlphabet_length (line : List ℕ) :
    (encodeAlphabet line).length = line.dedup.length := by
  have h1 : ((encodeAlphabet line).map CharCode.character).length =
      line.dedup.length := (encodeAlphabet_map_character line).length_eq
  rw [List.length_map] at h1
  exact h1

theorem encodeLineWith_mem (alpha : List CharCode) (line : List ℕ)
    (halpha : ∀ e ∈ alpha, ∀ ch ∈ e.code, ch = '0' ∨ ch = '1') :
    ∀ ch ∈ encodeLineWith alpha line, ch = '0' ∨ ch = '1' := by
  unfold encodeLineWith
  suffices h : ∀ (l : List ℕ) (acc : List Char), (∀ ch ∈ acc, ch = '0' ∨ ch = '1') →
      ∀ ch ∈ l.foldl (fun acc c =>
        acc ++ ((lookupCode alpha c).map CharCode.code).getD []) acc,
        ch = '0' ∨ ch = '1' by
    exact h line [] (by intro ch hch; simp at hch)
  intro l
  induction l with
  | nil => intro acc hacc ch hch; exact hacc ch hch
  | cons c l ih =>
    intro acc hacc ch hch
    rw [List.foldl_cons] at hch
    refine ih _ ?_ ch hch
    intro ch' hch'
    rcases List.mem_append.mp hch' with h | h
    · exact hacc ch' h
    · rcases hlook : lookupCode alpha c with _ | e
      · rw [hlook] at h
        simp at h
      · rw [hlook] at h
        simp only [Option.map_some', Option.getD_some] at h
        have hmem : e ∈ alpha := List.mem_of_find?_eq_some hlook
        exact halpha e hmem ch' h

theorem encodeLineWith_length_le (alpha : List CharCode) (line : List ℕ) (B : ℕ)
    (halpha : ∀ e ∈ alpha, e.code.length ≤ B) :
    (encodeLineWith alpha line).length ≤ line.length * B := by
  unfold encodeLineWith
  suffices h : ∀ (l : List ℕ) (acc : List Char),
      (l.foldl (fun acc c =>
        acc ++ ((lookupCode alpha c).map CharCode.code).getD []) acc).length ≤
        acc.length + l.length * B by
    have := h line []
    simpa using this
  intro l
  induction l with
  | nil => intro acc; simp
  | cons c l ih =>
    intro acc
    rw [List.foldl_cons]
    refine le_trans (ih _) ?_
    have hstep : (acc ++ ((lookupCode alpha c).map CharCode.code).getD []).length ≤
        acc.length + B := by
      rw [List.length_append]
      rcases hlook : lookupCode alpha c with _ | e
      · simp
      · have hmem : e ∈ alpha := List.mem_of_find?_eq_some hlook
        have := halpha e hmem
        simp only [Option.map_some', Option.getD_some]
        omega
    rw [List.length_cons]
    calc (acc ++ ((lookupCode alpha c).map CharCode.code).getD []).length + l.length * B
        ≤ acc.length + B + l.length * B := by omega
      _ = acc.length + (l.length + 1) * B := by ring

theorem sendMessageBuffer_payload (line : List ℕ) (h0 : 0 ∉ line) :
    requestPayload (sendMessageBuffer line) = line.take 31 := by
  have hall : ∀ x ∈ line, (fun c => decide (c ≠ 0)) x = true := by
    intro x hx
    simp only [decide_eq_true_eq]
    intro hx0
    exact h0 (hx0 ▸ hx)
  have htw : line.takeWhile (· ≠ 0) = line := List.takeWhile_eq_self_iff.mpr hall
  unfold requestPayload sendMessageBuffer
  have htake : ∀ x ∈ (line.takeWhile (· ≠ 0)).take 31,
      (fun c => decide (c ≠ 0)) x = true := by
    intro x hx
    exact hall x (List.mem_of_mem_take (by rw [htw] at hx; exact hx))
  rw [List.append_assoc, takeWhile_append_all _ _ _ htake, htw]
  have hz : List.takeWhile (fun c => decide (c ≠ 0))
      (List.replicate (31 - (List.take 31 line).length) 0 ++ [0]) = [] := by
    cases hk : 31 - (List.take 31 line).length with
    | zero => simp
    | succ k =>
      rw [List.replicate_succ, List.cons_append,
        List.takeWhile_cons_of_neg (by simp)]
  rw [hz, List.append_nil]

theorem encodeAlphabet_nil : encodeAlphabet [] = [] := rfl

theorem encodeAlphabet_code_facts (line : List ℕ) :
    ∀ e ∈ encodeAlphabet line, (∀ ch ∈ e.code, ch = '0' ∨ ch = '1') ∧
      e.code.length ≤ line.length ∧ 1 ≤ e.freq ∧ e.freq ≤ line.length ∧
      e.character ∈ line := by
  intro e he
  rcases eq_or_ne line [] with h | hne
  · subst h
    rw [encodeAlphabet_nil] at he
    simp at he
  · rcases mem_encodeAlphabet hne e he with ⟨cum', hf1, hfn, hchar, hcode⟩
    refine ⟨?_, ?_, hf1, hfn, hchar⟩
    · intro ch hch
      rw [hcode] at hch
      exact decimalToBinary_mem _ _ ch hch
    · rw [hcode, decimalToBinary_length]
      exact precisionOf_le _ _ hf1

/-- C7.  Wire round trip: for a line of fewer than 31 NUL-free bytes, the
alphabet and encoded bits the client parses out of the server's response
are exactly those of `encode` computed locally. -/
theorem c7_wire_roundtrip (line : List ℕ) (hlen : line.length < 31)
    (hbytes : ∀ c ∈ line, c ≠ 0 ∧ c < 256) :
    clientRun line = some ((encode line).1, (encode line).2) := by
  have h0 : 0 ∉ line := fun h => (hbytes 0 h).1 rfl
  unfold clientRun serverHandle
  rw [sendMessageBuffer_payload line h0, List.take_of_length_le (by omega),
    shannonCodeMsg_fresh]
  have hdedup : line.dedup.length ≤ line.length :=
    (List.dedup_sublist line).length_le
  apply parse_serializeResponse
  · show (encodeAlphabet line).length < 4294967296
    rw [encodeAlphabet_length]
    omega
  · intro e he
    rcases encodeAlphabet_code_facts line e he with ⟨hcode, hclen, hf1, hfn, hchar⟩
    exact ⟨(hbytes _ hchar).2, by omega, by omega, hcode⟩
  · show ∀ ch ∈ encodeLineWith (encodeAlphabet line) line, ch = '0' ∨ ch = '1'
    apply encodeLineWith_mem
    intro e he
    exact (encodeAlphabet_code_facts line e he).1
  · show (encodeLineWith (encodeAlphabet line) line).length < 4294967296
    have hb : (encodeLineWith (encodeAlphabet line) line).length ≤
        line.length * line.length := by
      apply encodeLineWith_length_le
      intro e he
      exact (encodeAlphabet_code_facts line e he).2.1
    have hsq : line.length * line.length ≤ 30 * 30 :=
      Nat.mul_le_mul (by omega) (by omega)
    omega

/-- C7 witness at line "aab". -/
theorem c7_wire_roundtrip_witness :
    (lineBytes "aab").length < 31 ∧
    clientRun (lineBytes "aab") =
      some ((encode (lineBytes "aab")).1, (encode (lineBytes "aab")).2) :=
  ⟨by decide, c7_wire_roundtrip (lineBytes "aab") (by decide) (by decide)⟩

/-- Phases of one worker thread of mutex.cpp: encoding the line
(`computing`), blocked on `while (localID != counter) cond_wait`
(`ready`), past the wait and writing its output (`printing`), after
incrementing the counter and broadcasting (`done`). -/
inductive TaskStatus
  | computing
  | ready
  | printing
  | done
deriving DecidableEq

/-- Shared state of the ordered-output coordinator of mutex.cpp: the
per-thread phase, the shared `counter`, and the observed sequence of
thread ids at the print side effect. -/
structure CoordState (N : ℕ) where
  status : Fin N → TaskStatus
  counter : ℕ
  trace : List ℕ

/-- Interleaving semantics of mutex.cpp lines 148-185: any thread may
finish its encode at any time; a thread passes the wait loop only when
`counter` equals its id, at which point its print is observed; afterwards
it increments `counter` (and broadcasts, modelled by the other threads
re-checking their guards). -/
inductive CoordStep (N : ℕ) : CoordState N → CoordState N → Prop
  | finish (s : CoordState N) (i : Fin N)
      (h : s.status i = TaskStatus.computing) :
      CoordStep N s ⟨Function.update s.status i TaskStatus.ready, s.counter, s.trace⟩
  | enter (s : CoordState N) (i : Fin N) (h : s.status i = TaskStatus.ready)
      (hc : s.counter = i.val) :
      CoordStep N s ⟨Function.update s.status i TaskStatus.printing, s.counter,
        s.trace ++ [i.val]⟩
  | leave (s : CoordState N) (i : Fin N)
      (h : s.status i = TaskStatus.printing) :
      CoordStep N s ⟨Function.update s.status i TaskStatus.done, s.counter + 1, s.trace⟩

/-- All N threads created, none finished, `counter = 0`, nothing printed. -/
def initCoord (N : ℕ) : CoordState N :=
  ⟨fun _ => TaskStatus.computing, 0, []⟩

def coordReaches (N : ℕ) : CoordState N → CoordState N → Prop :=
  Relation.ReflTransGen (CoordStep N)

/-- Coordinator invariant: the trace is exactly `0, 1, …` so far, `done`
threads are exactly the ids below `counter`, and at most one thread (the
one with id `counter`) is printing. -/
def coordInv (N : ℕ) (s : CoordState N) : Prop :=
  s.counter ≤ N ∧
  s.trace = List.range s.trace.length ∧
  (∀ i : Fin N, s.status i = TaskStatus.done ↔ i.val < s.counter) ∧
  (∀ i : Fin N, s.status i = TaskStatus.printing → i.val = s.counter) ∧
  ((∃ i : Fin N, s.status i = TaskStatus.printing) → s.trace.length = s.counter + 1) ∧
  ((∀ i : Fin N, s.status i ≠ TaskStatus.printing) → s.trace.length = s.counter)

theorem coordInv_init (N : ℕ) : coordInv N (initCoord N) := by
  refine ⟨Nat.zero_le N, rfl, ?_, ?_, ?_, fun _ => rfl⟩
  · intro i
    constructor
    · intro h
      exact TaskStatus.noConfusion h
    · intro h
      simp [initCoord] at h
  · intro i h
    exact TaskStatus.noConfusion h
  · rintro ⟨i, h⟩
    exact TaskStatus.noConfusion h

theorem coordInv_step (N : ℕ) (s t : CoordState N) (hstep : CoordStep N s t)
    (hinv : coordInv N s) : coordInv N t := by
  obtain ⟨hcN, htr, hdone, hpr, hprlen, hnoprlen⟩ := hinv
  cases hstep with
  | finish i h =>
    unfold coordInv
    dsimp only
    refine ⟨hcN, htr, ?_, ?_, ?_, ?_⟩
    · intro j
      by_cases hji : j = i
      · subst hji
        rw [Function.update_same]
        constructor
        · intro hc
          exact TaskStatus.noConfusion hc
        · intro hlt
          have hdi := (hdone j).mpr hlt
          rw [h] at hdi
          exact TaskStatus.noConfusion hdi
      · rw [Function.update_noteq hji]
        exact hdone j
    · intro j hj
      by_cases hji : j = i
      · subst hji
        rw [Function.update_same] at hj
        exact TaskStatus.noConfusion hj
      · rw [Function.update_noteq hji] at hj
        exact hpr j hj
    · rintro ⟨j, hj⟩
      apply hprlen
      by_cases hji : j = i
      · subst hji
        rw [Function.update_same] at hj
        exact TaskStatus.noConfusion hj
      · rw [Function.update_noteq hji] at hj
        exact ⟨j, hj⟩
    · intro hall
      apply hnoprlen
      intro j hj
      by_cases hji : j = i
      · subst hji
        rw [h] at hj
        exact TaskStatus.noConfusion hj
      · have := hall j
        rw [Function.update_noteq hji] at this
        exact this hj
  | enter i h hc =>
    unfold coordInv
    dsimp only
    have hnopr : ∀ j : Fin N, s.status j ≠ TaskStatus.printing := by
      intro j hj
      have hcj := hpr j hj
      have hji : j = i := Fin.val_injective (by omega)
      subst hji
      rw [h] at hj
      exact TaskStatus.noConfusion hj
    have hlen : s.trace.length = s.counter := hnoprlen hnopr
    refine ⟨hcN, ?_, ?_, ?_, ?_, ?_⟩
    · show s.trace ++ [i.val] = List.range (s.trace ++ [i.val]).length
      have hival : i.val = s.trace.length := by omega
      rw [List.length_append, List.length_cons, List.length_nil, List.range_succ,
        ← htr, hival]
    · intro j
      by_cases hji : j = i
      · subst hji
        rw [Function.update_same]
        constructor
        · intro hcon
          exact TaskStatus.noConfusion hcon
        · intro hlt
          omega
      · rw [Function.update_noteq hji]
        exact hdone j
    · intro j hj
      by_cases hji : j = i
      · subst hji
        omega
      · rw [Function.update_noteq hji] at hj
        exact absurd hj (hnopr j)
    · intro _
      show (s.trace ++ [i.val]).length = s.counter + 1
      rw [List.length_append, List.length_cons, List.length_nil]
      omega
    · intro hall
      exfalso
      have := hall i
      rw [Function.update_same] at this
      exact this rfl
  | leave i h =>
    unfold coordInv
    dsimp only
    have hival : i.val = s.counter := hpr i h
    have hlen : s.trace.length = s.counter + 1 := hprlen ⟨i, h⟩
    have hcN' : s.counter + 1 ≤ N := by
      have := i.isLt
      omega
    have hnopr' : ∀ j : Fin N,
        Function.update s.status i TaskStatus.done j ≠ TaskStatus.printing := by
      intro j hj
      by_cases hji : j = i
      · subst hji
        rw [Function.update_same] at hj
        exact TaskStatus.noConfusion hj
      · rw [Function.update_noteq hji] at hj
        have := hpr j hj
        exact hji (Fin.val_injective (by omega))
    refine ⟨hcN', htr, ?_, ?_, ?_, ?_⟩
    · intro j
      by_cases hji : j = i
      · subst hji
        rw [Function.update_same]
        constructor
        · intro _
          omega
        · intro _
          rfl
      · rw [Function.update_noteq hji]
        constructor
        · intro hd
          have := (hdone j).mp hd
          omega
        · intro hlt
          have hjv : j.val ≠ i.val := fun hv => hji (Fin.val_injective hv)
          exact (hdone j).mpr (by omega)
    · intro j hj
      exact absurd hj (hnopr' j)
    · rintro ⟨j, hj⟩
      exact absurd hj (hnopr' j)
    · intro _
      omega

theorem coordInv_reaches (N : ℕ) (s : CoordState N)
    (h : coordReaches N (initCoord N) s) : coordInv N s := by
  unfold coordReaches at h
  induction h with
  | refl => exact coordInv_init N
  | tail _ hstep ih => exact coordInv_step N _ _ hstep ih

/-- C4.  Ordered emission: in every run of the coordinator over N
concurrently finishing tasks that ends with all tasks done, the sequence
of task ids observed at the print side effect is exactly 0, 1, …, N-1,
no matter in which order the encode phases finished. -/
theorem c4_emission_order (N : ℕ) (s : CoordState N)
    (hreach : coordReaches N (initCoord N) s)
    (hall : ∀ i : Fin N, s.status i = TaskStatus.done) :
    s.trace = List.range N := by
  obtain ⟨hcN, htr, hdoneiff, hpr, hprlen, hnoprlen⟩ := coordInv_reaches N s hreach
  have hnopr : ∀ i : Fin N, s.status i ≠ TaskStatus.printing := by
    intro i hi
    rw [hall i] at hi
    exact TaskStatus.noConfusion hi
  have hlen : s.trace.length = s.counter := hnoprlen hnopr
  have hcnt : s.counter = N := by
    rcases Nat.eq_zero_or_pos N with h0 | hpos
    · omega
    · have hlt := (hdoneiff ⟨N - 1, by omega⟩).mp (hall _)
      simp only at hlt
      omega
  rw [htr, hlen, hcnt]

/-- C4 witness: a two-task run whose encode phases finish out of order
(task 1 first) still prints 0 then 1. -/
theorem c4_emission_order_witness :
    ∃ s : CoordState 2, coordReaches 2 (initCoord 2) s ∧
      (∀ i : Fin 2, s.status i = TaskStatus.done) ∧ s.trace = List.range 2 := by
  have hreach : coordReaches 2 (initCoord 2)
      ⟨Function.update (Function.update (Function.update (Function.update
        (Function.update (Function.update (fun _ => TaskStatus.computing)
          1 TaskStatus.ready) 0 TaskStatus.ready) 0 TaskStatus.printing)
          0 TaskStatus.done) 1 TaskStatus.printing) 1 TaskStatus.done,
        2, [0, 1]⟩ := by
    refine Relation.ReflTransGen.head (CoordStep.finish _ 1 rfl) ?_
    refine Relation.ReflTransGen.head (CoordStep.finish _ 0 (by decide)) ?_
    refine Relation.ReflTransGen.head (CoordStep.enter _ 0 (by decide) (by decide)) ?_
    refine Relation.ReflTransGen.head (CoordStep.leave _ 0 (by decide)) ?_
    refine Relation.ReflTransGen.head (CoordStep.enter _ 1 (by decide) (by decide)) ?_
    refine Relation.ReflTransGen.head (CoordStep.leave _ 1 (by decide)) ?_
    exact Relation.ReflTransGen.refl
  exact ⟨_, hreach, by decide, c4_emission_order 2 _ hreach (by decide)⟩
